import Mathlib

/-!
# finance-manager: ingest, classify, resolve, export

A shallow embedding of `main.go`.  Go strings are modelled as lists of
characters (`Str`): every string the program handles is text, and on valid
UTF-8 the byte-level `strings.Contains`, `strings.Split` and
`strings.TrimSpace` agree with their character-level counterparts.
The `float64` amount is never inspected by the program, so its type is a
parameter `A`.
-/

namespace FinanceManager

/-- Go `string`, as a list of characters. -/
abbrev Str := List Char

/-! ## Library boundary: package `strings` -/

/-- Go `strings.HasPrefix(s, p)`. -/
def hasPrefix : Str → Str → Bool
  | _, [] => true
  | [], _ :: _ => false
  | c :: s, d :: p => c == d && hasPrefix s p

/-- Go `strings.Contains(s, sub)`: some suffix of `s` starts with `sub`. -/
def stringsContains : Str → Str → Bool
  | [], sub => hasPrefix [] sub
  | c :: s, sub => hasPrefix (c :: s) sub || stringsContains s sub

/-- Inner loop of Go `strings.Split(s, sep)` for a non-empty `sep`: `skip`
counts the characters of a separator occurrence still to be consumed, `cur`
holds the current field reversed. -/
def splitLoop (sep : Str) : Nat → Str → Str → List Str
  | _, cur, [] => [cur.reverse]
  | skip + 1, cur, _ :: s => splitLoop sep skip cur s
  | 0, cur, c :: s =>
    if hasPrefix (c :: s) sep then cur.reverse :: splitLoop sep (sep.length - 1) [] s
    else splitLoop sep 0 (c :: cur) s

/-- Go `strings.Split(s, sep)`: with an empty separator the string is
exploded into its characters, otherwise it is cut at every occurrence of
`sep`. -/
def stringsSplit (s sep : Str) : List Str :=
  if sep = [] then s.map (fun c => [c]) else splitLoop sep 0 [] s

/-- Go `unicode.IsSpace`. -/
def isSpace (c : Char) : Bool :=
  let n := c.toNat
  n == 0x20 || (0x09 ≤ n && n ≤ 0x0D) || n == 0x85 || n == 0xA0 || n == 0x1680 ||
  (0x2000 ≤ n && n ≤ 0x200A) || n == 0x2028 || n == 0x2029 || n == 0x202F ||
  n == 0x205F || n == 0x3000

/-- Go `strings.TrimSpace`. -/
def trimSpace (s : Str) : Str :=
  ((s.dropWhile isSpace).reverse.dropWhile isSpace).reverse

/-! ## Data model -/

/-- The civil fields of a Go `time.Time`. -/
structure Time where
  year : Int
  month : Nat
  day : Nat
  hour : Nat
  minute : Nat
  second : Nat
  deriving DecidableEq, Repr

/-- Source `type Tx struct`. -/
structure Tx (A : Type) where
  Date : Time
  Amount : A
  Description : Str
  Category : Str
  deriving DecidableEq, Repr

/-- A row of table `rules(keyword TEXT UNIQUE, category TEXT)`. -/
structure Rule where
  keyword : Str
  category : Str
  deriving DecidableEq, Repr

/-- A row of table `transactions(id, date, amount, description, category)`;
the autoincrement `id` is the position in the table. -/
structure TxRow (A : Type) where
  date : Str
  amount : A
  description : Str
  category : Str
  deriving DecidableEq, Repr

/-- The SQLite database `finance.db`: both tables in rowid order. -/
structure DB (A : Type) where
  transactions : List (TxRow A)
  rules : List Rule
  deriving DecidableEq, Repr

/-- Source `var defaultRules`, in the order the literal lists them. -/
def defaultRules : List Rule :=
  [⟨"IFOOD".toList, "Alimentação".toList⟩,
   ⟨"UBER".toList, "Transporte".toList⟩,
   ⟨"99".toList, "Transporte".toList⟩,
   ⟨"NETFLIX".toList, "Assinaturas".toList⟩,
   ⟨"SPOTIFY".toList, "Assinaturas".toList⟩,
   ⟨"AMAZON".toList, "Compras".toList⟩]

/-! ## Classifier -/

/-- Source `matchRule`: the loop over the rows of
`SELECT keyword, category FROM rules`. -/
def matchRule : List Rule → Str → Str
  | [], _ => []
  | r :: rest, desc => if stringsContains desc r.keyword then r.category else matchRule rest desc

/-- Source `firstWord`: `strings.Split(s, " ")[0]`; `none` is the index
out of range panic. -/
def firstWord (s : Str) : Option Str :=
  (stringsSplit s " ".toList)[0]?

/-! ## Library boundary: package `time` -/

/-- The decimal digit `d` as a character. -/
def digitChar (d : Nat) : Char := Char.ofNat (48 + d % 10)

/-- Go `time.appendInt` on a non-negative value: decimal digits, zero-padded
on the left to `width`; the two fast paths are the ones of the Go source. -/
def appendNat (u width : Nat) : Str :=
  if width = 2 ∧ u < 100 then [digitChar (u / 10), digitChar u]
  else if width = 4 ∧ u < 10000 then
    [digitChar (u / 1000), digitChar (u / 100), digitChar (u / 10), digitChar u]
  else
    let ds := Nat.toDigits 10 u
    List.replicate (width - ds.length) '0' ++ ds

/-- Go `time.appendInt`: a minus sign for a negative value, then the padded
digits of its magnitude. -/
def appendInt (x : Int) (width : Nat) : Str :=
  if x < 0 then '-' :: appendNat x.natAbs width else appendNat x.natAbs width

/-- Go `t.Format("2006-01-02")`. -/
def formatDate (t : Time) : Str :=
  appendInt t.year 4 ++ '-' :: appendInt t.month 2 ++ '-' :: appendInt t.day 2

/-- Go `t.Format("2006-01")`. -/
def formatMonth (t : Time) : Str :=
  appendInt t.year 4 ++ '-' :: appendInt t.month 2

/-- Go `t.Format("20060102_150405")`. -/
def formatStamp (t : Time) : Str :=
  appendInt t.year 4 ++ appendInt t.month 2 ++ appendInt t.day 2 ++
    '_' :: appendInt t.hour 2 ++ appendInt t.minute 2 ++ appendInt t.second 2

/-- The zero value of `time.Time`: January 1, year 1, 00:00:00 UTC. -/
def zeroTime : Time := ⟨1, 1, 1, 0, 0, 0⟩

/-- Go `time.isLeap`. -/
def isLeap (year : Nat) : Bool :=
  year % 4 == 0 && (year % 100 != 0 || year % 400 == 0)

/-- Go `time.daysIn`. -/
def daysIn (month year : Nat) : Nat :=
  if month = 2 then (if isLeap year then 29 else 28)
  else if month = 4 ∨ month = 6 ∨ month = 9 ∨ month = 11 then 30 else 31

/-- Value of a decimal digit character, `none` for any other character. -/
def digitVal (c : Char) : Option Nat :=
  if 48 ≤ c.toNat ∧ c.toNat ≤ 57 then some (c.toNat - 48) else none

/-- Value of a fixed-width run of decimal digits. -/
def digitsVal (s : Str) : Option Nat :=
  s.foldl (fun acc c => acc.bind (fun n => (digitVal c).map (fun d => n * 10 + d))) (some 0)

/-- Go `time.Parse("2006-01-02", s)`: exactly four year digits, two month
digits and two day digits separated by `-`, month in `1..12`, day within
the month; `none` is the returned error. -/
def timeParse (s : Str) : Option Time :=
  match s with
  | [y1, y2, y3, y4, s1, m1, m2, s2, d1, d2] =>
    if s1 = '-' ∧ s2 = '-' then
      match digitsVal [y1, y2, y3, y4], digitsVal [m1, m2], digitsVal [d1, d2] with
      | some y, some m, some d =>
        if 1 ≤ m ∧ m ≤ 12 ∧ 1 ≤ d ∧ d ≤ daysIn m y then some ⟨y, m, d, 0, 0, 0⟩ else none
      | _, _, _ => none
    else none
  | _ => none

/-! ## Persister -/

variable {A : Type}

/-- Source `saveTx`: `INSERT INTO transactions(date, amount, description,
category)` with the date formatted as `2006-01-02`. -/
def saveTx (db : DB A) (tx : Tx A) (cat : Str) : DB A :=
  { db with transactions :=
      db.transactions ++ [⟨formatDate tx.Date, tx.Amount, tx.Description, cat⟩] }

/-- The effect of `INSERT OR IGNORE INTO rules(keyword, category) VALUES(?,?)`
on the rows of `rules`, under the `UNIQUE` constraint on `keyword`: a
colliding insert is dropped, any other is appended. -/
def insertOrIgnore (rules : List Rule) (k c : Str) : List Rule :=
  if rules.any (fun r => r.keyword == k) then rules else rules ++ [⟨k, c⟩]

/-- The statement `INSERT OR IGNORE INTO rules(keyword, category)
VALUES(?,?)` run on the store. -/
def insertOrIgnoreRule (db : DB A) (k c : Str) : DB A :=
  { db with rules := insertOrIgnore db.rules k c }

/-- Source `mustDB`, the seeding loop; `rangeOrder` is the order in which
Go's `range` visits the entries of the map `defaultRules`. -/
def mustDB (rangeOrder : List Rule → List Rule) (db : DB A) : DB A :=
  (rangeOrder defaultRules).foldl (fun d r => insertOrIgnoreRule d r.keyword r.category) db

/-! ## Ingest consumer -/

/-- Body of the consumer goroutine's loop `for tx := range txCh`. -/
def consumerStep (s : DB A × List (Tx A)) (tx : Tx A) : DB A × List (Tx A) :=
  let cat := matchRule s.1.rules tx.Description
  if cat = [] then (s.1, s.2 ++ [tx]) else (saveTx s.1 tx cat, s.2)

/-- The consumer goroutine: `txs` is the sequence received from `txCh`; the
result is the store and the `unknown` slice. -/
def consumer (db : DB A) (txs : List (Tx A)) : DB A × List (Tx A) :=
  txs.foldl consumerStep (db, [])

/-! ## Resolver -/

/-- One prompt block written by `fmt.Printf` in `resolveUnknown`. -/
structure Prompt (A : Type) where
  date : Str
  amount : A
  description : Str
  deriving DecidableEq, Repr

/-- The store together with the console: the unread part of standard input
and the prompts printed so far. -/
structure World (A : Type) where
  db : DB A
  stdin : Str
  prompts : List (Prompt A)
  deriving DecidableEq, Repr

/-- Go `bufio.Reader.ReadString(delim)` with the error dropped: the text up
to and including the first `delim`, or all that is left at end of file,
paired with the unread rest. -/
def readString (delim : Char) : Str → Str × Str
  | [] => ([], [])
  | c :: s =>
    if c = delim then ([c], s)
    else ((c :: (readString delim s).1), (readString delim s).2)

/-- Body of the loop of `resolveUnknown`. -/
def resolveStep (w : World A) (tx : Tx A) : Option (World A) :=
  let prompts := w.prompts ++ [⟨formatDate tx.Date, tx.Amount, tx.Description⟩]
  let line := readString '\n' w.stdin
  let cat := trimSpace line.1
  let db := saveTx w.db tx cat
  match firstWord tx.Description with
  | none => none
  | some k => some ⟨insertOrIgnoreRule db k cat, line.2, prompts⟩

/-- Source `resolveUnknown`. -/
def resolveUnknown (w : World A) : List (Tx A) → Option (World A)
  | [] => some w
  | tx :: list => (resolveStep w tx).bind (fun w1 => resolveUnknown w1 list)

/-- Source `main` from the consumer goroutine to the resolution phase:
ingest everything received, then resolve the unknown batch if it is not
empty. -/
def ingestAndResolve (w : World A) (txs : List (Tx A)) : Option (World A) :=
  let r := consumer w.db txs
  if r.2.length > 0 then resolveUnknown { w with db := r.1 } r.2
  else some { w with db := r.1 }

/-- Standard input holding exactly the given lines, each ended by a
newline, and then end of file. -/
def stdinLines : List Str → Str
  | [] => []
  | l :: ls => l ++ '\n' :: stdinLines ls

/-! ## Exporter -/

/-- A spreadsheet cell: text or number. -/
inductive Cell (A : Type) where
  | str (s : Str)
  | num (a : A)
  deriving DecidableEq, Repr

/-- One sheet of an `xlsx.File`: its name and its rows of cells. -/
structure Sheet (A : Type) where
  name : Str
  rows : List (List (Cell A))
  deriving DecidableEq, Repr

/-- An `xlsx.File`: its sheets in creation order. -/
abbrev Workbook (A : Type) := List (Sheet A)

/-- Contents of a file: bytes this program did not write, or a workbook
saved by the spreadsheet encoder. -/
inductive FileData (A : Type) where
  | raw (bytes : List Nat)
  | xlsx (wb : Workbook A)
  deriving DecidableEq, Repr

/-- The filesystem: what each path holds, if anything. -/
abbrev FS (A : Type) := Str → Option (FileData A)

/-- The filesystem with `path` holding `data`. -/
def FS.write (fs : FS A) (path : Str) (data : FileData A) : FS A :=
  fun p => if p = path then some data else fs p

/-- A successful `os.Rename(old, new)`: `new` takes the contents of `old`,
and `old` no longer exists. -/
def FS.rename (fs : FS A) (old new : Str) : FS A :=
  fun p => if p = new then fs old else if p = old then none else fs p

/-- How `xl.Save(file)` ends: the file is written, `os.Create` fails and
the path is untouched, or the write fails after the file was truncated. -/
inductive SaveOutcome where
  | ok
  | createFailed
  | writeFailed (bytes : List Nat)
  deriving DecidableEq, Repr

/-- Source `backupSpreadsheet`: when `os.Stat(file)` succeeds the file is
renamed to `file.<stamp>.bak`; `renameOk` tells whether `os.Rename`
succeeds, and its error is dropped. -/
def backupSpreadsheet (now : Time) (renameOk : Bool) (file : Str) (fs : FS A) : FS A :=
  if (fs file).isSome then
    let backup := file ++ '.' :: formatStamp now ++ ".bak".toList
    if renameOk then fs.rename file backup else fs
  else fs

/-- Go map read `m[k]`: the value stored under `k`, if any. -/
def mapGet {β : Type} : List (Str × β) → Str → Option β
  | [], _ => none
  | (k1, v) :: m, k => if k1 = k then some v else mapGet m k

/-- Go map write `m[k] = v`. -/
def mapSet {β : Type} : List (Str × β) → Str → β → List (Str × β)
  | [], k, v => [(k, v)]
  | (k1, v1) :: m, k, v => if k1 = k then (k, v) :: m else (k1, v1) :: mapSet m k v

/-- The `Tx` filled by `rows.Scan` and `time.Parse` in `generateSpreadsheet`;
a date that does not parse leaves the zero time. -/
def scanRow (row : TxRow A) : Tx A :=
  ⟨(timeParse row.date).getD zeroTime, row.amount, row.description, row.category⟩

/-- Body of the first loop of `generateSpreadsheet`: scan a row and append
it to its month, `months[k] = append(months[k], t)`. -/
def bucketStep (months : List (Str × List (Tx A))) (row : TxRow A) : List (Str × List (Tx A)) :=
  let t := scanRow row
  let k := formatMonth t.Date
  mapSet months k ((mapGet months k).getD [] ++ [t])

/-- The map key under which `bucketStep` files a row. -/
def rowMonth (row : TxRow A) : Str := formatMonth (scanRow row).Date

/-- A time whose calendar day lies in a year of four digits, with month and
day in range: the dates `saveTx` writes as `YYYY-MM-DD`. -/
def isoDay (t : Time) : Prop :=
  0 ≤ t.year ∧ t.year < 10000 ∧ 1 ≤ t.month ∧ t.month ≤ 12 ∧ 1 ≤ t.day ∧
    t.day ≤ daysIn t.month t.year.toNat

/-- The month key `YYYY-MM` of a stored date `YYYY-MM-DD`. -/
def monthKey (date : Str) : Str := date.take 7

/-- The characters `xlsx` refuses in a sheet name. -/
def forbiddenInSheetName (c : Char) : Bool :=
  c == ':' || c == '\\' || c == '/' || c == '?' || c == '*' || c == '[' || c == ']'

/-- Library `xl.AddSheet(name)`: a new empty sheet at the end, or `none`
(the error) for a duplicate name, an empty name, one longer than 31
characters or one with a forbidden character. -/
def addSheet (xl : Workbook A) (name : Str) : Option (Workbook A) :=
  if xl.any (fun s => s.name == name) || name.length == 0 || 31 < name.length ||
      name.any forbiddenInSheetName then none
  else some (xl ++ [⟨name, []⟩])

/-- Adds a row to the sheet added last (`s.AddRow()` then `r.WriteSlice`). -/
def addRow (xl : Workbook A) (cells : List (Cell A)) : Workbook A :=
  match xl.reverse with
  | [] => xl
  | s :: before => (⟨s.name, s.rows ++ [cells]⟩ :: before).reverse

/-- The header row written to every sheet. -/
def headerRow : List (Cell A) :=
  [.str "Data".toList, .str "Valor".toList, .str "Descrição".toList, .str "Categoria".toList]

/-- The data row written for one transaction. -/
def dataRow (tx : Tx A) : List (Cell A) :=
  [.str (formatDate tx.Date), .num tx.Amount, .str tx.Description, .str tx.Category]

/-- Body of the second loop of `generateSpreadsheet`: a sheet named after
the month with the header and one row per transaction; `none` is the nil
dereference after a failed `AddSheet`, whose error is dropped. -/
def sheetStep (xl : Option (Workbook A)) (e : Str × List (Tx A)) : Option (Workbook A) :=
  xl.bind (fun x => (addSheet x e.1).map (fun x1 =>
    e.2.foldl (fun x2 tx => addRow x2 (dataRow tx)) (addRow x1 headerRow)))

/-- Source `generateSpreadsheet` up to `xl.Save`: the workbook built from
the rows of `SELECT date, amount, description, category FROM transactions`;
`rangeOrder` is the order in which `range months` visits the map. -/
def buildWorkbook (rangeOrder : List (Str × List (Tx A)) → List (Str × List (Tx A)))
    (rows : List (TxRow A)) : Option (Workbook A) :=
  (rangeOrder (rows.foldl bucketStep [])).foldl sheetStep (some [])

/-- Library `xl.Save(file)` with the error dropped. -/
def saveFile (out : SaveOutcome) (xl : Workbook A) (file : Str) (fs : FS A) : FS A :=
  match out with
  | .ok => fs.write file (.xlsx xl)
  | .createFailed => fs
  | .writeFailed bytes => fs.write file (.raw bytes)

/-- Source `generateSpreadsheet`. -/
def generateSpreadsheet (rangeOrder : List (Str × List (Tx A)) → List (Str × List (Tx A)))
    (out : SaveOutcome) (db : DB A) (file : Str) (fs : FS A) : Option (FS A) :=
  (buildWorkbook rangeOrder db.transactions).map (fun xl => saveFile out xl file fs)

/-- Source `main`, the export phase: `backupSpreadsheet("gastos.xlsx")`
followed by `generateSpreadsheet(db, "gastos.xlsx")`. -/
def exportPhase (rangeOrder : List (Str × List (Tx A)) → List (Str × List (Tx A)))
    (now : Time) (renameOk : Bool) (out : SaveOutcome) (db : DB A) (fs : FS A) :
    Option (FS A) :=
  generateSpreadsheet rangeOrder out db "gastos.xlsx".toList
    (backupSpreadsheet now renameOk "gastos.xlsx".toList fs)

/-! # Theorems -/

/-! ## Strings -/

theorem hasPrefix_iff (s p : Str) : hasPrefix s p = true ↔ p <+: s := by
  induction p generalizing s with
  | nil => simp [hasPrefix]
  | cons d p ih =>
    cases s with
    | nil => simp [hasPrefix]
    | cons c s =>
      simp only [hasPrefix, Bool.and_eq_true, beq_iff_eq, ih]
      constructor
      · rintro ⟨rfl, t, rfl⟩
        exact ⟨t, rfl⟩
      · rintro ⟨t, h⟩
        simp only [List.cons_append, List.cons.injEq] at h
        exact ⟨h.1.symm, t, h.2⟩

theorem stringsContains_iff (s sub : Str) : stringsContains s sub = true ↔ sub <:+: s := by
  induction s with
  | nil =>
    simp only [stringsContains, hasPrefix_iff]
    constructor
    · rintro ⟨t, h⟩
      exact ⟨[], t, by simpa using h⟩
    · rintro ⟨a, b, h⟩
      have h1 : sub = [] := by
        simp only [List.append_eq_nil] at h
        exact h.1.2
      subst h1
      exact ⟨[], rfl⟩
  | cons c s ih =>
    simp only [stringsContains, Bool.or_eq_true, hasPrefix_iff, ih]
    constructor
    · rintro (⟨t, h⟩ | ⟨a, b, h⟩)
      · exact ⟨[], t, by simpa using h⟩
      · exact ⟨c :: a, b, by simp [← h]⟩
    · rintro ⟨a, b, h⟩
      cases a with
      | nil => exact Or.inl ⟨b, by simpa using h⟩
      | cons x a =>
        simp only [List.cons_append, List.cons.injEq] at h
        exact Or.inr ⟨a, b, by simpa using h.2⟩

theorem splitLoop_space_head (cur s : Str) :
    (splitLoop [' '] 0 cur s)[0]? = some (cur.reverse ++ s.takeWhile (fun c => c != ' ')) := by
  induction s generalizing cur with
  | nil => simp [splitLoop]
  | cons c s ih =>
    by_cases h : c = ' '
    · subst h
      simp [splitLoop, hasPrefix]
    · have h1 : hasPrefix (c :: s) [' '] = false := by simp [hasPrefix, h]
      simp [splitLoop, h1, ih, h]

theorem firstWord_eq (s : Str) : firstWord s = some (s.takeWhile (fun c => c != ' ')) := by
  have h : (" ".toList : Str) = [' '] := rfl
  simp [firstWord, stringsSplit, h, splitLoop_space_head]

theorem takeWhile_ne_split (s : Str) (x : Char) :
    (x ∉ s ∧ s.takeWhile (fun c => c != x) = s) ∨
      ∃ rest, s = s.takeWhile (fun c => c != x) ++ x :: rest := by
  induction s with
  | nil => simp
  | cons c s ih =>
    by_cases h : c = x
    · subst h
      exact Or.inr ⟨s, by simp⟩
    · rcases ih with ⟨h1, h2⟩ | ⟨rest, h2⟩
      · refine Or.inl ⟨?_, ?_⟩
        · simp [h1, Ne.symm h]
        · simp [h, h2]
      · refine Or.inr ⟨rest, ?_⟩
        simp only [List.takeWhile_cons, bne_iff_ne, ne_eq, h, not_false_eq_true, decide_True,
          ↓reduceIte, List.cons_append, List.cons.injEq, true_and]
        simpa using h2

theorem not_mem_takeWhile_ne (s : Str) (x : Char) : x ∉ s.takeWhile (fun c => c != x) := by
  intro h
  have := List.mem_takeWhile_imp h
  simp at this

/-! ## Classifier -/

theorem matchRule_first_split (rules : List Rule) (desc : Str) (pre : List Rule) (r : Rule)
    (post : List Rule) (hsplit : rules = pre ++ r :: post)
    (hpre : ∀ q ∈ pre, ¬ q.keyword <:+: desc) (hr : r.keyword <:+: desc) :
    matchRule rules desc = r.category := by
  subst hsplit
  induction pre with
  | nil => simp [matchRule, (stringsContains_iff desc r.keyword).mpr hr]
  | cons q pre ih =>
    have hq : stringsContains desc q.keyword = false := by
      have := hpre q (by simp)
      rw [← stringsContains_iff] at this
      simpa using this
    simp only [List.cons_append, matchRule, hq]
    exact ih (fun q1 h1 => hpre q1 (by simp [h1]))

theorem matchRule_none (rules : List Rule) (desc : Str)
    (hall : ∀ r ∈ rules, ¬ r.keyword <:+: desc) : matchRule rules desc = [] := by
  induction rules with
  | nil => rfl
  | cons q rules ih =>
    have hq : stringsContains desc q.keyword = false := by
      have := hall q (by simp)
      rw [← stringsContains_iff] at this
      simpa using this
    simp only [matchRule, hq]
    exact ih (fun r h => hall r (by simp [h]))

/-- Claim C1: `matchRule` returns the category of the first rule, in store
order, whose keyword is a substring of the description, and the empty
string when no rule's keyword is a substring of it. -/
theorem matchRule_first_match (rules : List Rule) (desc : Str) :
    (∀ pre r post, rules = pre ++ r :: post → (∀ q ∈ pre, ¬ q.keyword <:+: desc) →
        r.keyword <:+: desc → matchRule rules desc = r.category) ∧
      ((∀ r ∈ rules, ¬ r.keyword <:+: desc) → matchRule rules desc = []) :=
  ⟨matchRule_first_split rules desc, matchRule_none rules desc⟩

theorem matchRule_first_match_witness :
    matchRule defaultRules "IFOOD*RESTAURANTE".toList = "Alimentação".toList ∧
      matchRule defaultRules "PADARIA CENTRAL".toList = [] :=
  ⟨(matchRule_first_match defaultRules "IFOOD*RESTAURANTE".toList).1 []
      ⟨"IFOOD".toList, "Alimentação".toList⟩ defaultRules.tail rfl (by simp)
      ⟨[], "*RESTAURANTE".toList, rfl⟩,
   (matchRule_first_match defaultRules "PADARIA CENTRAL".toList).2 (by
      intro r hr
      rw [← stringsContains_iff]
      revert r
      decide)⟩

/-! ## firstWord -/

/-- Claim C10: `firstWord s` is always defined (index 0 of the split result
exists, also for the empty string); it is the prefix of `s` ending just
before the first space, or all of `s` when `s` has no space; it contains no
space and is a prefix of `s`. -/
theorem firstWord_spec (s : Str) :
    ∃ w, firstWord s = some w ∧ ' ' ∉ w ∧ w <+: s ∧
      ((' ' ∉ s ∧ w = s) ∨ ∃ rest, s = w ++ ' ' :: rest) := by
  refine ⟨s.takeWhile (fun c => c != ' '), firstWord_eq s, not_mem_takeWhile_ne s ' ', ?_,
    takeWhile_ne_split s ' '⟩
  exact (List.takeWhile_prefix _)

/-! ## Persister -/

theorem matchRule_cases (rules : List Rule) (desc : Str) :
    ((∀ r ∈ rules, ¬ r.keyword <:+: desc) ∧ matchRule rules desc = []) ∨
      ∃ pre r post, rules = pre ++ r :: post ∧ (∀ q ∈ pre, ¬ q.keyword <:+: desc) ∧
        r.keyword <:+: desc ∧ matchRule rules desc = r.category := by
  induction rules with
  | nil => exact Or.inl ⟨by simp, rfl⟩
  | cons q rules ih =>
    by_cases hq : stringsContains desc q.keyword = true
    · refine Or.inr ⟨[], q, rules, rfl, by simp, (stringsContains_iff _ _).mp hq, ?_⟩
      simp [matchRule, hq]
    · have hq1 : ¬ q.keyword <:+: desc := fun h => hq ((stringsContains_iff _ _).mpr h)
      have hm : matchRule (q :: rules) desc = matchRule rules desc := by
        simp [matchRule, hq]
      rcases ih with ⟨h1, h2⟩ | ⟨pre, r, post, h1, h2, h3, h4⟩
      · refine Or.inl ⟨?_, hm.trans h2⟩
        intro r hr
        rcases List.mem_cons.mp hr with rfl | hr
        · exact hq1
        · exact h1 r hr
      · refine Or.inr ⟨q :: pre, r, post, by simp [h1], ?_, h3, hm.trans h4⟩
        intro r1 hr1
        rcases List.mem_cons.mp hr1 with rfl | hr1
        · exact hq1
        · exact h2 r1 hr1

theorem insertOrIgnoreRule_transactions (db : DB A) (k c : Str) :
    (insertOrIgnoreRule db k c).transactions = db.transactions := rfl

theorem insertOrIgnoreRule_rules (db : DB A) (k c : Str) :
    (insertOrIgnoreRule db k c).rules = insertOrIgnore db.rules k c := rfl

theorem insertOrIgnore_present (rules : List Rule) (k c : Str)
    (h : ∃ r ∈ rules, r.keyword = k) : insertOrIgnore rules k c = rules := by
  unfold insertOrIgnore
  rw [if_pos]
  simpa using h

theorem insertOrIgnore_absent (rules : List Rule) (k c : Str)
    (h : ∀ r ∈ rules, r.keyword ≠ k) : insertOrIgnore rules k c = rules ++ [⟨k, c⟩] := by
  unfold insertOrIgnore
  rw [if_neg]
  simpa using h

theorem saveTx_rules (db : DB A) (tx : Tx A) (cat : Str) : (saveTx db tx cat).rules = db.rules :=
  rfl

theorem mustDB_fresh :
    mustDB id (⟨[], []⟩ : DB Int) = ⟨[], defaultRules⟩ ∧
      mustDB id (⟨[], defaultRules⟩ : DB Int) = ⟨[], defaultRules⟩ := by
  decide

/-! ## Ingest consumer -/

theorem consumerStep_unknown (db : DB A) (unknown : List (Tx A)) (tx : Tx A)
    (h : matchRule db.rules tx.Description = []) :
    consumerStep (db, unknown) tx = (db, unknown ++ [tx]) := by
  simp [consumerStep, h]

theorem consumerStep_saved (db : DB A) (unknown : List (Tx A)) (tx : Tx A)
    (h : matchRule db.rules tx.Description ≠ []) :
    consumerStep (db, unknown) tx =
      (saveTx db tx (matchRule db.rules tx.Description), unknown) := by
  simp [consumerStep, h]

theorem consumerStep_rules (s : DB A × List (Tx A)) (tx : Tx A) :
    (consumerStep s tx).1.rules = s.1.rules := by
  unfold consumerStep
  simp only
  split <;> rfl

theorem consumerStep_categories (s : DB A × List (Tx A)) (tx : Tx A)
    (h : ∀ r ∈ s.1.transactions, r.category ≠ []) :
    ∀ r ∈ (consumerStep s tx).1.transactions, r.category ≠ [] := by
  unfold consumerStep
  simp only
  split
  · exact h
  · rename_i hc
    intro r hr
    simp only [saveTx, List.mem_append, List.mem_singleton] at hr
    rcases hr with hr | rfl
    · exact h r hr
    · exact hc

theorem consumer_fold_categories (txs : List (Tx A)) (s : DB A × List (Tx A))
    (h : ∀ r ∈ s.1.transactions, r.category ≠ []) :
    ∀ r ∈ (txs.foldl consumerStep s).1.transactions, r.category ≠ [] := by
  induction txs generalizing s with
  | nil => simpa using h
  | cons tx txs ih =>
    simp only [List.foldl_cons]
    exact ih _ (consumerStep_categories s tx h)

/-- Claim C2, as amended: the consumer appends a transaction to the Unknown
batch exactly when `matchRule` returns the empty string, which happens when
no rule's keyword is a substring of the description or when the first
matching rule has an empty category; otherwise the transaction is saved
with the category of the first matching rule and the batch is untouched. -/
theorem consumerStep_spec (db : DB A) (unknown : List (Tx A)) (tx : Tx A) :
    (matchRule db.rules tx.Description = [] ↔
        ((∀ r ∈ db.rules, ¬ r.keyword <:+: tx.Description) ∨
          ∃ pre r post, db.rules = pre ++ r :: post ∧
            (∀ q ∈ pre, ¬ q.keyword <:+: tx.Description) ∧
            r.keyword <:+: tx.Description ∧ r.category = [])) ∧
      (matchRule db.rules tx.Description = [] →
        consumerStep (db, unknown) tx = (db, unknown ++ [tx])) ∧
      (matchRule db.rules tx.Description ≠ [] →
        consumerStep (db, unknown) tx =
            (saveTx db tx (matchRule db.rules tx.Description), unknown) ∧
          ∃ pre r post, db.rules = pre ++ r :: post ∧
            (∀ q ∈ pre, ¬ q.keyword <:+: tx.Description) ∧
            r.keyword <:+: tx.Description ∧
            matchRule db.rules tx.Description = r.category) := by
  have hfirst := matchRule_first_split db.rules tx.Description
  refine ⟨?_, consumerStep_unknown db unknown tx, ?_⟩
  · constructor
    · intro h0
      rcases matchRule_cases db.rules tx.Description with ⟨h1, _⟩ | ⟨pre, r, post, h1, h2, h3, h4⟩
      · exact Or.inl h1
      · exact Or.inr ⟨pre, r, post, h1, h2, h3, h4 ▸ h0⟩
    · rintro (h | ⟨pre, r, post, h1, h2, h3, h4⟩)
      · rcases matchRule_cases db.rules tx.Description with ⟨_, h6⟩ | ⟨pre, r, post, h5, _, h7, _⟩
        · exact h6
        · exact absurd h7 (h r (by simp [h5]))
      · rw [hfirst pre r post h1 h2 h3, h4]
  · intro hne
    refine ⟨consumerStep_saved db unknown tx hne, ?_⟩
    rcases matchRule_cases db.rules tx.Description with ⟨_, h6⟩ | h
    · exact absurd h6 hne
    · exact h

theorem consumerStep_spec_witness :
    consumerStep ((⟨[], defaultRules⟩ : DB Int), [])
        ⟨⟨2024, 3, 14, 0, 0, 0⟩, -42, "IFOOD*RESTAURANTE".toList, []⟩ =
      (⟨[⟨"2024-03-14".toList, -42, "IFOOD*RESTAURANTE".toList, "Alimentação".toList⟩],
        defaultRules⟩, []) :=
  ((consumerStep_spec (⟨[], defaultRules⟩ : DB Int) []
    ⟨⟨2024, 3, 14, 0, 0, 0⟩, -42, "IFOOD*RESTAURANTE".toList, []⟩).2.2 (by decide)).1

/-- Claim C2, counterexample: a rule whose keyword is a substring of the
description but whose category is empty sends the transaction to the
Unknown batch. -/
theorem consumerStep_empty_category_rule :
    "PADARIA".toList <:+: "PADARIA NORTE".toList ∧
      consumerStep ((⟨[], [⟨"PADARIA".toList, []⟩]⟩ : DB Int), [])
          ⟨⟨2024, 3, 16, 0, 0, 0⟩, -12, "PADARIA NORTE".toList, []⟩ =
        (⟨[], [⟨"PADARIA".toList, []⟩]⟩,
          [⟨⟨2024, 3, 16, 0, 0, 0⟩, -12, "PADARIA NORTE".toList, []⟩]) :=
  ⟨⟨[], " NORTE".toList, rfl⟩, by decide⟩

/-! ## Resolver -/

theorem resolveStep_eq (w : World A) (tx : Tx A) :
    resolveStep w tx = some
      ⟨insertOrIgnoreRule (saveTx w.db tx (trimSpace (readString '\n' w.stdin).1))
          (tx.Description.takeWhile (fun c => c != ' '))
          (trimSpace (readString '\n' w.stdin).1),
        (readString '\n' w.stdin).2,
        w.prompts ++ [⟨formatDate tx.Date, tx.Amount, tx.Description⟩]⟩ := by
  simp [resolveStep, firstWord_eq]

theorem resolveUnknown_cons (w : World A) (tx : Tx A) (list : List (Tx A)) :
    resolveUnknown w (tx :: list) =
      resolveUnknown
        ⟨insertOrIgnoreRule (saveTx w.db tx (trimSpace (readString '\n' w.stdin).1))
            (tx.Description.takeWhile (fun c => c != ' '))
            (trimSpace (readString '\n' w.stdin).1),
          (readString '\n' w.stdin).2,
          w.prompts ++ [⟨formatDate tx.Date, tx.Amount, tx.Description⟩]⟩ list := by
  simp [resolveUnknown, resolveStep_eq]

theorem resolveUnknown_append (b1 b2 : List (Tx A)) (w : World A) :
    resolveUnknown w (b1 ++ b2) = (resolveUnknown w b1).bind (fun w1 => resolveUnknown w1 b2) := by
  induction b1 generalizing w with
  | nil => simp [resolveUnknown]
  | cons tx b1 ih => simp only [List.cons_append, resolveUnknown_cons, ih]

theorem readString_line (l rest : Str) (h : '\n' ∉ l) :
    readString '\n' (l ++ '\n' :: rest) = (l ++ ['\n'], rest) := by
  induction l with
  | nil => simp [readString]
  | cons c l ih =>
    have hc : c ≠ '\n' := fun hc => h (by simp [hc])
    have hl : '\n' ∉ l := fun hl => h (by simp [hl])
    simp [readString, hc, ih hl]

theorem dropWhile_isSpace_newline (s : Str) (h : s.all isSpace = true) :
    (s ++ ['\n']).dropWhile isSpace = [] := by
  induction s with
  | nil => decide
  | cons c s ih =>
    simp only [List.all_cons, Bool.and_eq_true] at h
    simp [List.dropWhile_cons, h.1, ih h.2]

theorem trimSpace_line (l : Str) : trimSpace (l ++ ['\n']) = trimSpace l := by
  have hnl : isSpace '\n' = true := by decide
  unfold trimSpace
  by_cases h : l.all isSpace = true
  · have h1 : l.dropWhile isSpace = [] := by
      rw [List.dropWhile_eq_nil_iff]
      simpa using h
    rw [dropWhile_isSpace_newline l h, h1]
  · obtain ⟨x, hx, hxs⟩ : ∃ x ∈ l, isSpace x = false := by
      simpa using h
    have hd : (l ++ ['\n']).dropWhile isSpace = l.dropWhile isSpace ++ ['\n'] := by
      clear h
      induction l with
      | nil => simp at hx
      | cons c l ih =>
        by_cases hc : isSpace c = true
        · rcases List.mem_cons.mp hx with rfl | hx1
          · simp [hxs] at hc
          · simp [List.dropWhile_cons, hc, ih hx1]
        · simp [List.dropWhile_cons, hc]
    rw [hd]
    simp [List.reverse_append, List.dropWhile_cons, hnl]

theorem filter_keyword_absent (W : Str) (rules : List Rule)
    (h : ∀ r ∈ rules, r.keyword ≠ W) : rules.filter (fun r => decide (r.keyword = W)) = [] := by
  simpa [List.filter_eq_nil_iff] using h

theorem filter_keyword_present (W : Str) (rules : List Rule)
    (hd : (rules.map (fun r => r.keyword)).Nodup) (h : ∃ r ∈ rules, r.keyword = W) :
    (rules.filter (fun r => decide (r.keyword = W))).length = 1 := by
  induction rules with
  | nil => simp at h
  | cons q rules ih =>
    simp only [List.map_cons, List.nodup_cons, List.mem_map, not_exists, not_and] at hd
    by_cases hq : q.keyword = W
    · have h1 : ∀ r ∈ rules, r.keyword ≠ W := fun r hr hk => hd.1 r hr (hk.trans hq.symm)
      simp [List.filter_cons, hq, filter_keyword_absent W rules h1]
    · obtain ⟨r, hr, hk⟩ := h
      rcases List.mem_cons.mp hr with rfl | hr
      · exact absurd hk hq
      · simp only [List.filter_cons, hq, decide_False, Bool.false_eq_true, ↓reduceIte]
        exact ih hd.2 ⟨r, hr, hk⟩

/-- Claim C6: resolving one unknown transaction with first word `W` and
trimmed input `C`, on a rules table with distinct keywords, leaves exactly
one rule with keyword `W`: the table is unchanged when `W` was already a
keyword, and is the old table with `(W, C)` appended otherwise; keywords
stay distinct. -/
theorem resolveStep_learns (w : World A) (tx : Tx A)
    (hd : (w.db.rules.map (fun r => r.keyword)).Nodup) :
    ∃ W w1, firstWord tx.Description = some W ∧ resolveStep w tx = some w1 ∧
      (w1.db.rules.filter (fun r => decide (r.keyword = W))).length = 1 ∧
      ((∃ r ∈ w.db.rules, r.keyword = W) → w1.db.rules = w.db.rules) ∧
      ((∀ r ∈ w.db.rules, r.keyword ≠ W) →
        w1.db.rules = w.db.rules ++ [⟨W, trimSpace (readString '\n' w.stdin).1⟩]) ∧
      (w1.db.rules.map (fun r => r.keyword)).Nodup := by
  refine ⟨_, _, firstWord_eq _, resolveStep_eq w tx, ?_⟩
  simp only
  generalize tx.Description.takeWhile (fun c => c != ' ') = W
  generalize trimSpace (readString '\n' w.stdin).1 = C
  have hpres : (∃ r ∈ w.db.rules, r.keyword = W) →
      (insertOrIgnoreRule (saveTx w.db tx C) W C).rules = w.db.rules := by
    intro h
    rw [insertOrIgnoreRule_rules, saveTx_rules, insertOrIgnore_present _ _ _ h]
  have habs : (∀ r ∈ w.db.rules, r.keyword ≠ W) →
      (insertOrIgnoreRule (saveTx w.db tx C) W C).rules = w.db.rules ++ [⟨W, C⟩] := by
    intro h
    rw [insertOrIgnoreRule_rules, saveTx_rules, insertOrIgnore_absent _ _ _ h]
  refine ⟨?_, hpres, habs, ?_⟩
  · by_cases h : ∃ r ∈ w.db.rules, r.keyword = W
    · rw [hpres h]
      exact filter_keyword_present W w.db.rules hd h
    · have h1 : ∀ r ∈ w.db.rules, r.keyword ≠ W := by
        intro r hr hk
        exact h ⟨r, hr, hk⟩
      rw [habs h1]
      simp [List.filter_append, filter_keyword_absent W w.db.rules h1]
  · by_cases h : ∃ r ∈ w.db.rules, r.keyword = W
    · rw [hpres h]
      exact hd
    · have h1 : ∀ r ∈ w.db.rules, r.keyword ≠ W := by
        intro r hr hk
        exact h ⟨r, hr, hk⟩
      rw [habs h1]
      simp only [List.map_append, List.map_cons, List.map_nil]
      refine List.Nodup.append hd (by simp) ?_
      simpa [List.Disjoint] using h1

theorem resolveStep_learns_witness :
    ∃ w1, resolveStep (⟨⟨[], defaultRules⟩, "Alimentação\n".toList, []⟩ : World Int)
        ⟨⟨2024, 3, 15, 0, 0, 0⟩, -20, "PADARIA CENTRAL".toList, []⟩ = some w1 ∧
      w1.db.rules = defaultRules ++ [⟨"PADARIA".toList, "Alimentação".toList⟩] := by
  obtain ⟨W, w1, hW, hstep, _, _, habs, _⟩ :=
    resolveStep_learns (⟨⟨[], defaultRules⟩, "Alimentação\n".toList, []⟩ : World Int)
      ⟨⟨2024, 3, 15, 0, 0, 0⟩, -20, "PADARIA CENTRAL".toList, []⟩ (by decide)
  have hW1 : W = "PADARIA".toList := by
    have h0 : firstWord "PADARIA CENTRAL".toList = some "PADARIA".toList := by decide
    exact (Option.some.inj (hW.symm.trans h0))
  subst hW1
  exact ⟨w1, hstep, habs (by decide)⟩

/-! ## Resolver: the whole batch -/

theorem resolveFold_transactions (pairs : List (Tx A × Str)) (db : DB A) :
    (pairs.foldl (fun d p => insertOrIgnoreRule (saveTx d p.1 p.2)
        (p.1.Description.takeWhile (fun c => c != ' ')) p.2) db).transactions =
      db.transactions ++
        pairs.map (fun p => ⟨formatDate p.1.Date, p.1.Amount, p.1.Description, p.2⟩) := by
  induction pairs generalizing db with
  | nil => simp
  | cons p pairs ih =>
    rw [List.foldl_cons, ih]
    simp only [insertOrIgnoreRule_transactions, saveTx, List.map_cons,
      List.append_assoc, List.singleton_append]

theorem resolveFold_rules (pairs : List (Tx A × Str)) (db : DB A) :
    (pairs.foldl (fun d p => insertOrIgnoreRule (saveTx d p.1 p.2)
        (p.1.Description.takeWhile (fun c => c != ' ')) p.2) db).rules =
      pairs.foldl (fun rs p => insertOrIgnore rs
        (p.1.Description.takeWhile (fun c => c != ' ')) p.2) db.rules := by
  induction pairs generalizing db with
  | nil => simp
  | cons p pairs ih =>
    rw [List.foldl_cons, ih]
    simp only [List.foldl_cons, insertOrIgnoreRule_rules, saveTx_rules]

theorem resolveUnknown_lines (batch : List (Tx A)) (lines : List Str) (rest : Str)
    (w : World A) (hlen : lines.length = batch.length) (hnl : ∀ l ∈ lines, '\n' ∉ l)
    (hin : w.stdin = stdinLines lines ++ rest) :
    resolveUnknown w batch = some
      ⟨(batch.zip (lines.map trimSpace)).foldl (fun d p => insertOrIgnoreRule (saveTx d p.1 p.2)
          (p.1.Description.takeWhile (fun c => c != ' ')) p.2) w.db,
        rest,
        w.prompts ++ batch.map (fun tx => ⟨formatDate tx.Date, tx.Amount, tx.Description⟩)⟩ := by
  induction batch generalizing lines w with
  | nil =>
    have h0 : lines = [] := List.length_eq_zero.mp hlen
    subst h0
    cases w
    simp_all [resolveUnknown, stdinLines]
  | cons tx batch ih =>
    cases lines with
    | nil => simp at hlen
    | cons l lines =>
      have hl : '\n' ∉ l := hnl l (by simp)
      have hr : readString '\n' w.stdin = (l ++ ['\n'], stdinLines lines ++ rest) := by
        rw [hin]
        simp only [stdinLines, List.append_assoc, List.cons_append]
        exact readString_line l _ hl
      rw [resolveUnknown_cons, hr]
      rw [ih lines _ (by simpa using hlen) (fun l1 h1 => hnl l1 (by simp [h1])) rfl]
      simp [trimSpace_line l]

theorem resolveUnknown_eof (batch : List (Tx A)) (w : World A) (hin : w.stdin = []) :
    resolveUnknown w batch = some
      ⟨(batch.zip (List.replicate batch.length [])).foldl
          (fun d p => insertOrIgnoreRule (saveTx d p.1 p.2)
            (p.1.Description.takeWhile (fun c => c != ' ')) p.2) w.db,
        [],
        w.prompts ++ batch.map (fun tx => ⟨formatDate tx.Date, tx.Amount, tx.Description⟩)⟩ := by
  induction batch generalizing w with
  | nil =>
    cases w
    simp_all [resolveUnknown]
  | cons tx batch ih =>
    have hr : readString '\n' w.stdin = ([], []) := by
      rw [hin]
      rfl
    have ht : trimSpace [] = [] := rfl
    rw [resolveUnknown_cons, hr]
    rw [ih _ rfl]
    simp [ht, List.replicate_succ]

/-- Claim C5, as amended: `resolveUnknown` does not stop at end of file,
because the error of `ReadString` is dropped.  When standard input ends
after `k` complete lines, `k` below the batch length, the first `k`
unknowns are saved with their trimmed lines and every remaining unknown is
saved as well, with the empty category; each of them is prompted for and
offered to the rules table under its first word. -/
theorem resolveUnknown_past_eof (w : World A) (batch : List (Tx A)) (lines : List Str)
    (hk : lines.length < batch.length) (hnl : ∀ l ∈ lines, '\n' ∉ l)
    (hin : w.stdin = stdinLines lines) :
    ∃ w1, resolveUnknown w batch = some w1 ∧
      w1.db.transactions = w.db.transactions ++
        (batch.zip (lines.map trimSpace ++
            List.replicate (batch.length - lines.length) [])).map
          (fun p => ⟨formatDate p.1.Date, p.1.Amount, p.1.Description, p.2⟩) ∧
      w1.db.rules =
        (batch.zip (lines.map trimSpace ++
            List.replicate (batch.length - lines.length) [])).foldl
          (fun rs p => insertOrIgnore rs (p.1.Description.takeWhile (fun c => c != ' ')) p.2)
          w.db.rules ∧
      w1.prompts =
        w.prompts ++ batch.map (fun tx => ⟨formatDate tx.Date, tx.Amount, tx.Description⟩) := by
  have hsplit : batch = batch.take lines.length ++ batch.drop lines.length :=
    (List.take_append_drop _ _).symm
  have hlen1 : lines.length = (batch.take lines.length).length := by
    rw [List.length_take]
    omega
  have hlen2 : (batch.drop lines.length).length = batch.length - lines.length :=
    List.length_drop _ _
  have hzip : batch.zip (lines.map trimSpace ++ List.replicate (batch.length - lines.length) []) =
      (batch.take lines.length).zip (lines.map trimSpace) ++
        (batch.drop lines.length).zip
          (List.replicate (batch.drop lines.length).length ([] : Str)) := by
    rw [hlen2]
    have hl : (batch.take lines.length).length = (lines.map trimSpace).length := by
      rw [List.length_map]
      exact hlen1.symm
    have hz := @List.zip_append _ _ (batch.take lines.length) (batch.drop lines.length)
      (lines.map trimSpace) (List.replicate (batch.length - lines.length) ([] : Str)) hl
    rw [List.take_append_drop] at hz
    exact hz
  have h1 := resolveUnknown_lines (batch.take lines.length) lines [] w hlen1 hnl (by simpa using hin)
  have hres : resolveUnknown w batch = some
      ⟨((batch.drop lines.length).zip
            (List.replicate (batch.drop lines.length).length ([] : Str))).foldl
          (fun d p => insertOrIgnoreRule (saveTx d p.1 p.2)
            (p.1.Description.takeWhile (fun c => c != ' ')) p.2)
          (((batch.take lines.length).zip (lines.map trimSpace)).foldl
            (fun d p => insertOrIgnoreRule (saveTx d p.1 p.2)
              (p.1.Description.takeWhile (fun c => c != ' ')) p.2) w.db),
        [],
        (w.prompts ++ (batch.take lines.length).map
            (fun tx => ⟨formatDate tx.Date, tx.Amount, tx.Description⟩)) ++
          (batch.drop lines.length).map
            (fun tx => ⟨formatDate tx.Date, tx.Amount, tx.Description⟩)⟩ := by
    conv_lhs => rw [hsplit]
    rw [resolveUnknown_append, h1, Option.some_bind, resolveUnknown_eof _ _ rfl]
  refine ⟨_, hres, ?_, ?_, ?_⟩
  · simp only [resolveFold_transactions, hzip, List.map_append, List.append_assoc]
  · simp only [resolveFold_rules, hzip, List.foldl_append]
  · simp only [List.append_assoc, ← List.map_append, List.take_append_drop]

theorem resolveUnknown_past_eof_witness :
    ∃ w1, resolveUnknown (⟨⟨[], defaultRules⟩, "Lazer\n".toList, []⟩ : World Int)
        [⟨⟨2024, 3, 15, 0, 0, 0⟩, -30, "CINEMA SHOPPING".toList, []⟩,
         ⟨⟨2024, 3, 16, 0, 0, 0⟩, -18, "FARMACIA CENTRO".toList, []⟩] = some w1 ∧
      w1.db.transactions =
        [⟨"2024-03-15".toList, -30, "CINEMA SHOPPING".toList, "Lazer".toList⟩,
         ⟨"2024-03-16".toList, -18, "FARMACIA CENTRO".toList, []⟩] := by
  obtain ⟨w1, h1, h2, _, _⟩ :=
    resolveUnknown_past_eof (⟨⟨[], defaultRules⟩, "Lazer\n".toList, []⟩ : World Int)
      [⟨⟨2024, 3, 15, 0, 0, 0⟩, -30, "CINEMA SHOPPING".toList, []⟩,
       ⟨⟨2024, 3, 16, 0, 0, 0⟩, -18, "FARMACIA CENTRO".toList, []⟩]
      ["Lazer".toList] (by decide) (by decide) (by decide)
  exact ⟨w1, h1, h2.trans (by decide)⟩

/-- Claim C5, counterexample: standard input ends after one complete line
and the batch holds two unknowns; the second unknown is not discarded but
saved with the empty category, and a rule is written for it. -/
theorem resolveUnknown_saves_after_eof :
    resolveUnknown (⟨⟨[], defaultRules⟩, "Lazer\n".toList, []⟩ : World Int)
        [⟨⟨2024, 3, 15, 0, 0, 0⟩, -30, "CINEMA SHOPPING".toList, []⟩,
         ⟨⟨2024, 3, 16, 0, 0, 0⟩, -18, "FARMACIA CENTRO".toList, []⟩] =
      some ⟨⟨[⟨"2024-03-15".toList, -30, "CINEMA SHOPPING".toList, "Lazer".toList⟩,
              ⟨"2024-03-16".toList, -18, "FARMACIA CENTRO".toList, []⟩],
             defaultRules ++ [⟨"CINEMA".toList, "Lazer".toList⟩, ⟨"FARMACIA".toList, []⟩]⟩,
            [],
            [⟨"2024-03-15".toList, -30, "CINEMA SHOPPING".toList⟩,
             ⟨"2024-03-16".toList, -18, "FARMACIA CENTRO".toList⟩]⟩ := by
  decide

/-! ## Category of the persisted rows -/

/-- Claim C3, as amended: ingest keeps category non-emptiness for every
store and every stream, since `saveTx` runs after `matchRule` only on a
non-empty category.  The Resolver stores the trimmed input line as it is,
so non-emptiness holds at the end of the run when every unknown is answered
by a line that has a character other than white space. -/
theorem category_nonempty (w : World A) (txs : List (Tx A))
    (hinv : ∀ r ∈ w.db.transactions, r.category ≠ []) :
    (∀ r ∈ (consumer w.db txs).1.transactions, r.category ≠ []) ∧
      ∀ (lines : List Str) (rest : Str),
        lines.length = (consumer w.db txs).2.length → (∀ l ∈ lines, '\n' ∉ l) →
        (∀ l ∈ lines, trimSpace l ≠ []) → w.stdin = stdinLines lines ++ rest →
        ∃ w1, ingestAndResolve w txs = some w1 ∧ ∀ r ∈ w1.db.transactions, r.category ≠ [] := by
  have hing : ∀ r ∈ (consumer w.db txs).1.transactions, r.category ≠ [] :=
    consumer_fold_categories txs (w.db, []) hinv
  refine ⟨hing, ?_⟩
  intro lines rest hlen hnl hne hin
  unfold ingestAndResolve
  simp only
  split
  · rw [resolveUnknown_lines (consumer w.db txs).2 lines rest
      { w with db := (consumer w.db txs).1 } hlen hnl hin]
    refine ⟨_, rfl, ?_⟩
    intro r hr
    simp only [resolveFold_transactions, List.mem_append, List.mem_map] at hr
    rcases hr with hr | ⟨p, hp, rfl⟩
    · exact hing r hr
    · have hp2 : p.2 ∈ lines.map trimSpace := (List.of_mem_zip hp).2
      obtain ⟨l, hl, hl2⟩ := List.mem_map.mp hp2
      simp only
      rw [← hl2]
      exact hne l hl
  · exact ⟨_, rfl, hing⟩

theorem category_nonempty_witness :
    ∃ w1, ingestAndResolve (⟨⟨[], defaultRules⟩, "Alimentação\n".toList, []⟩ : World Int)
        [⟨⟨2024, 3, 14, 0, 0, 0⟩, -42, "IFOOD*RESTAURANTE".toList, []⟩,
         ⟨⟨2024, 3, 15, 0, 0, 0⟩, -20, "PADARIA CENTRAL".toList, []⟩] = some w1 ∧
      ∀ r ∈ w1.db.transactions, r.category ≠ [] :=
  (category_nonempty (⟨⟨[], defaultRules⟩, "Alimentação\n".toList, []⟩ : World Int)
      [⟨⟨2024, 3, 14, 0, 0, 0⟩, -42, "IFOOD*RESTAURANTE".toList, []⟩,
       ⟨⟨2024, 3, 15, 0, 0, 0⟩, -20, "PADARIA CENTRAL".toList, []⟩]
      (by simp)).2 ["Alimentação".toList] [] (by decide) (by decide) (by decide) (by decide)

/-- Claim C3, counterexample: on a store with no transactions, an unknown
answered by a blank line is saved by the Resolver with the empty
category. -/
theorem resolver_saves_empty_category :
    ingestAndResolve (⟨⟨[], defaultRules⟩, "\n".toList, []⟩ : World Int)
        [⟨⟨2024, 3, 15, 0, 0, 0⟩, -20, "PADARIA CENTRAL".toList, []⟩] =
      some ⟨⟨[⟨"2024-03-15".toList, -20, "PADARIA CENTRAL".toList, []⟩],
             defaultRules ++ [⟨"PADARIA".toList, []⟩]⟩,
            [],
            [⟨"2024-03-15".toList, -20, "PADARIA CENTRAL".toList⟩]⟩ := by
  decide

/-! ## Learned rules -/

theorem mem_insertOrIgnore (rules : List Rule) (k c : Str) (r : Rule) (h : r ∈ rules) :
    r ∈ insertOrIgnore rules k c := by
  unfold insertOrIgnore
  split
  · exact h
  · exact List.mem_append_left _ h

theorem consumerStep_of_matchRule (db : DB A) (d C : Str) (hm : matchRule db.rules d = C)
    (unknown : List (Tx A)) (tx : Tx A) (htx : tx.Description = d) :
    (C ≠ [] → consumerStep (db, unknown) tx = (saveTx db tx C, unknown)) ∧
      (C = [] → consumerStep (db, unknown) tx = (db, unknown ++ [tx])) := by
  subst htx
  subst hm
  exact ⟨consumerStep_saved db unknown tx, consumerStep_unknown db unknown tx⟩

/-- Claim C4, as amended: two transactions arriving in order, neither
matching a rule present at ingest, both enter the Unknown batch and both
are prompted for; the first is saved with the first trimmed line and the
second with the second trimmed line read (empty at end of input), and the
rule made of the first word of the first description and the first trimmed
line is appended to the rules table.  When that first word is a substring
of the second description, `matchRule` on the final table gives the second
description the category typed for the first, so on the next ingest a
transaction with that description is saved with it without a prompt when it
is not empty, and goes to the Unknown batch again when it is empty. -/
theorem learned_rule_applies_later (w : World A) (t1 t2 : Tx A)
    (h1 : ∀ r ∈ w.db.rules, ¬ r.keyword <:+: t1.Description)
    (h2 : ∀ r ∈ w.db.rules, ¬ r.keyword <:+: t2.Description) :
    ∃ w1 k1 k2, ingestAndResolve w [t1, t2] = some w1 ∧
      firstWord t1.Description = some k1 ∧ firstWord t2.Description = some k2 ∧
      w1.prompts = w.prompts ++
        [⟨formatDate t1.Date, t1.Amount, t1.Description⟩,
         ⟨formatDate t2.Date, t2.Amount, t2.Description⟩] ∧
      w1.db.transactions = w.db.transactions ++
        [⟨formatDate t1.Date, t1.Amount, t1.Description,
            trimSpace (readString '\n' w.stdin).1⟩,
         ⟨formatDate t2.Date, t2.Amount, t2.Description,
            trimSpace (readString '\n' (readString '\n' w.stdin).2).1⟩] ∧
      w1.db.rules =
        insertOrIgnore (w.db.rules ++ [⟨k1, trimSpace (readString '\n' w.stdin).1⟩]) k2
          (trimSpace (readString '\n' (readString '\n' w.stdin).2).1) ∧
      (⟨k1, trimSpace (readString '\n' w.stdin).1⟩ : Rule) ∈ w1.db.rules ∧
      (k1 <:+: t2.Description →
        matchRule w1.db.rules t2.Description = trimSpace (readString '\n' w.stdin).1 ∧
        ∀ (unknown : List (Tx A)) (tx : Tx A), tx.Description = t2.Description →
          (trimSpace (readString '\n' w.stdin).1 ≠ [] →
            consumerStep (w1.db, unknown) tx =
              (saveTx w1.db tx (trimSpace (readString '\n' w.stdin).1), unknown)) ∧
          (trimSpace (readString '\n' w.stdin).1 = [] →
            consumerStep (w1.db, unknown) tx = (w1.db, unknown ++ [tx]))) := by
  have hm1 : matchRule w.db.rules t1.Description = [] := matchRule_none _ _ h1
  have hm2 : matchRule w.db.rules t2.Description = [] := matchRule_none _ _ h2
  have hc : consumer w.db [t1, t2] = (w.db, [t1, t2]) := by
    simp [consumer, consumerStep, hm1, hm2]
  have hsub : t1.Description.takeWhile (fun c => c != ' ') <:+: t1.Description := by
    obtain ⟨t, ht⟩ := List.takeWhile_prefix (fun c => c != ' ') (l := t1.Description)
    exact ⟨[], t, by simpa using ht⟩
  have habs : ∀ r ∈ w.db.rules, r.keyword ≠ t1.Description.takeWhile (fun c => c != ' ') := by
    intro r hr hrk
    exact h1 r hr (hrk ▸ hsub)
  have hrules : (insertOrIgnoreRule (saveTx (insertOrIgnoreRule (saveTx w.db t1
        (trimSpace (readString '\n' w.stdin).1))
        (t1.Description.takeWhile (fun c => c != ' '))
        (trimSpace (readString '\n' w.stdin).1)) t2
        (trimSpace (readString '\n' (readString '\n' w.stdin).2).1))
        (t2.Description.takeWhile (fun c => c != ' '))
        (trimSpace (readString '\n' (readString '\n' w.stdin).2).1)).rules =
      insertOrIgnore (w.db.rules ++ [⟨t1.Description.takeWhile (fun c => c != ' '),
          trimSpace (readString '\n' w.stdin).1⟩])
        (t2.Description.takeWhile (fun c => c != ' '))
        (trimSpace (readString '\n' (readString '\n' w.stdin).2).1) := by
    simp only [insertOrIgnoreRule_rules, saveTx_rules]
    rw [insertOrIgnore_absent _ _ _ habs]
  have hin : (⟨t1.Description.takeWhile (fun c => c != ' '),
      trimSpace (readString '\n' w.stdin).1⟩ : Rule) ∈
      insertOrIgnore (w.db.rules ++ [⟨t1.Description.takeWhile (fun c => c != ' '),
          trimSpace (readString '\n' w.stdin).1⟩])
        (t2.Description.takeWhile (fun c => c != ' '))
        (trimSpace (readString '\n' (readString '\n' w.stdin).2).1) :=
    mem_insertOrIgnore _ _ _ _ (by simp)
  have hmatch : t1.Description.takeWhile (fun c => c != ' ') <:+: t2.Description →
      matchRule (insertOrIgnore (w.db.rules ++ [⟨t1.Description.takeWhile (fun c => c != ' '),
          trimSpace (readString '\n' w.stdin).1⟩])
        (t2.Description.takeWhile (fun c => c != ' '))
        (trimSpace (readString '\n' (readString '\n' w.stdin).2).1)) t2.Description =
        trimSpace (readString '\n' w.stdin).1 := by
    intro hk2
    unfold insertOrIgnore
    split
    · exact matchRule_first_split _ _ w.db.rules ⟨_, _⟩ [] rfl h2 hk2
    · rw [List.append_assoc]
      exact matchRule_first_split _ _ w.db.rules ⟨_, _⟩ _ rfl h2 hk2
  unfold ingestAndResolve
  simp only [hc, List.length_cons, List.length_nil, Nat.zero_add, Nat.reduceAdd, gt_iff_lt,
    Nat.ofNat_pos, ↓reduceIte]
  rw [resolveUnknown_cons, resolveUnknown_cons]
  refine ⟨_, _, _, rfl, firstWord_eq _, firstWord_eq _, ?_, ?_, ?_, ?_, ?_⟩
  · simp [resolveUnknown]
  · simp [resolveUnknown, insertOrIgnoreRule_transactions, saveTx]
  · exact hrules
  · have hin1 := hin
    rw [← hrules] at hin1
    exact hin1
  · intro hk2
    have hmt := hmatch hk2
    rw [← hrules] at hmt
    exact ⟨hmt, fun unknown tx htx => consumerStep_of_matchRule _ _ _ hmt unknown tx htx⟩

theorem learned_rule_applies_later_witness :
    ∃ w1, ingestAndResolve (⟨⟨[], defaultRules⟩, "Alimentação\n".toList, []⟩ : World Int)
        [⟨⟨2024, 3, 15, 0, 0, 0⟩, -20, "PADARIA CENTRAL".toList, []⟩,
         ⟨⟨2024, 3, 16, 0, 0, 0⟩, -12, "PADARIA NORTE".toList, []⟩] = some w1 ∧
      w1.prompts.length = 2 ∧
      w1.db.transactions.map (fun r => r.category) = ["Alimentação".toList, []] ∧
      (⟨"PADARIA".toList, "Alimentação".toList⟩ : Rule) ∈ w1.db.rules ∧
      matchRule w1.db.rules "PADARIA NORTE".toList = "Alimentação".toList ∧
      consumerStep (w1.db, []) ⟨⟨2024, 4, 2, 0, 0, 0⟩, -9, "PADARIA NORTE".toList, []⟩ =
        (saveTx w1.db ⟨⟨2024, 4, 2, 0, 0, 0⟩, -9, "PADARIA NORTE".toList, []⟩
          "Alimentação".toList, []) := by
  obtain ⟨w1, k1, k2, hrun, hk1, _, hp, ht, _, hrule, hlater⟩ :=
    learned_rule_applies_later (⟨⟨[], defaultRules⟩, "Alimentação\n".toList, []⟩ : World Int)
      ⟨⟨2024, 3, 15, 0, 0, 0⟩, -20, "PADARIA CENTRAL".toList, []⟩
      ⟨⟨2024, 3, 16, 0, 0, 0⟩, -12, "PADARIA NORTE".toList, []⟩
      (by
        intro r hr
        rw [← stringsContains_iff]
        revert r
        decide)
      (by
        intro r hr
        rw [← stringsContains_iff]
        revert r
        decide)
  have hk : k1 = "PADARIA".toList := by
    have h0 : firstWord "PADARIA CENTRAL".toList = some "PADARIA".toList := by decide
    exact Option.some.inj (hk1.symm.trans h0)
  subst hk
  have hcat : trimSpace (readString '\n' "Alimentação\n".toList).1 = "Alimentação".toList := by
    decide
  simp only [hcat] at ht hrule hlater
  obtain ⟨hm, hnext⟩ := hlater ⟨[], " NORTE".toList, rfl⟩
  refine ⟨w1, hrun, ?_, ?_, hrule, hm, ?_⟩
  · rw [hp]
    rfl
  · rw [ht]
    decide
  · exact (hnext [] ⟨⟨2024, 4, 2, 0, 0, 0⟩, -9, "PADARIA NORTE".toList, []⟩ rfl).1 (by decide)

/-- Claim C4, counterexample: `PADARIA CENTRAL` then `PADARIA NORTE` on the
bootstrap rules with the single input line `Alimentação`: two prompts are
issued, and the second transaction is saved with the empty category, not
with the category typed for the first. -/
theorem second_unknown_prompted :
    (ingestAndResolve (⟨⟨[], defaultRules⟩, "Alimentação\n".toList, []⟩ : World Int)
        [⟨⟨2024, 3, 15, 0, 0, 0⟩, -20, "PADARIA CENTRAL".toList, []⟩,
         ⟨⟨2024, 3, 16, 0, 0, 0⟩, -12, "PADARIA NORTE".toList, []⟩]).map
        (fun w1 => (w1.prompts, w1.db.transactions)) =
      some ([⟨"2024-03-15".toList, -20, "PADARIA CENTRAL".toList⟩,
             ⟨"2024-03-16".toList, -12, "PADARIA NORTE".toList⟩],
            [⟨"2024-03-15".toList, -20, "PADARIA CENTRAL".toList, "Alimentação".toList⟩,
             ⟨"2024-03-16".toList, -12, "PADARIA NORTE".toList, []⟩]) := by
  decide

/-! ## Dates -/

theorem digitVal_digitChar (d : Nat) : digitVal (digitChar d) = some (d % 10) := by
  have h : ∀ n < 10, digitVal (Char.ofNat (48 + n)) = some n := by decide
  exact h (d % 10) (Nat.mod_lt _ (by decide))

theorem forbidden_digitChar (d : Nat) : forbiddenInSheetName (digitChar d) = false := by
  have h : ∀ n < 10, forbiddenInSheetName (Char.ofNat (48 + n)) = false := by decide
  exact h (d % 10) (Nat.mod_lt _ (by decide))

theorem appendInt_year (y : Nat) (h : y < 10000) :
    appendInt (y : Int) 4 =
      [digitChar (y / 1000), digitChar (y / 100), digitChar (y / 10), digitChar y] := by
  have h0 : ¬ ((y : Int) < 0) := by omega
  simp [appendInt, appendNat, h0, h]

theorem appendInt_two (m : Nat) (h : m < 100) :
    appendInt (m : Int) 2 = [digitChar (m / 10), digitChar m] := by
  have h0 : ¬ ((m : Int) < 0) := by omega
  simp [appendInt, appendNat, h0, h]

theorem formatDate_digits (y m d : Nat) (hy : y < 10000) (hm : m < 100) (hd : d < 100)
    (hh mi sec : Nat) :
    formatDate ⟨(y : Int), m, d, hh, mi, sec⟩ =
      [digitChar (y / 1000), digitChar (y / 100), digitChar (y / 10), digitChar y, '-',
        digitChar (m / 10), digitChar m, '-', digitChar (d / 10), digitChar d] := by
  simp [formatDate, appendInt_year y hy, appendInt_two m hm, appendInt_two d hd]

theorem formatMonth_digits (y m : Nat) (hy : y < 10000) (hm : m < 100) (d hh mi sec : Nat) :
    formatMonth ⟨(y : Int), m, d, hh, mi, sec⟩ =
      [digitChar (y / 1000), digitChar (y / 100), digitChar (y / 10), digitChar y, '-',
        digitChar (m / 10), digitChar m] := by
  simp [formatMonth, appendInt_year y hy, appendInt_two m hm]

theorem daysIn_le (m y : Nat) : daysIn m y ≤ 31 := by
  unfold daysIn
  split
  · split <;> omega
  · split <;> omega

theorem timeParse_digits (y m d : Nat) (hy : y < 10000) (hm1 : 1 ≤ m) (hm : m ≤ 12)
    (hd1 : 1 ≤ d) (hd : d ≤ daysIn m y) :
    timeParse [digitChar (y / 1000), digitChar (y / 100), digitChar (y / 10), digitChar y, '-',
        digitChar (m / 10), digitChar m, '-', digitChar (d / 10), digitChar d] =
      some ⟨(y : Int), m, d, 0, 0, 0⟩ := by
  have hd31 : daysIn m y ≤ 31 := daysIn_le m y
  have e1 : ((y / 1000 % 10 * 10 + y / 100 % 10) * 10 + y / 10 % 10) * 10 + y % 10 = y := by
    omega
  have e2 : m / 10 % 10 * 10 + m % 10 = m := by omega
  have e3 : d / 10 % 10 * 10 + d % 10 = d := by omega
  simp [timeParse, digitsVal, digitVal_digitChar, e1, e2, e3, hm1, hm, hd1, hd]

/-! ## The month map -/

theorem mapGet_none {β : Type} (m : List (Str × β)) (k : Str) (h : k ∉ m.map Prod.fst) :
    mapGet m k = none := by
  induction m with
  | nil => rfl
  | cons e m ih =>
    obtain ⟨k1, v1⟩ := e
    simp only [List.map_cons, List.mem_cons, not_or] at h
    simp [mapGet, Ne.symm h.1, ih h.2]

theorem mapGet_mem {β : Type} (m : List (Str × β)) (k : Str) (v : β)
    (hd : (m.map Prod.fst).Nodup) (h : (k, v) ∈ m) : mapGet m k = some v := by
  induction m with
  | nil => simp at h
  | cons e m ih =>
    obtain ⟨k1, v1⟩ := e
    simp only [List.map_cons, List.nodup_cons] at hd
    rcases List.mem_cons.mp h with heq | hm
    · simp only [Prod.mk.injEq] at heq
      simp [mapGet, heq.1, heq.2]
    · have hne : k1 ≠ k := by
        intro hk
        exact hd.1 (hk ▸ List.mem_map.mpr ⟨(k, v), hm, rfl⟩)
      simp [mapGet, hne, ih hd.2 hm]

theorem mapSet_new {β : Type} (m : List (Str × β)) (k : Str) (v : β)
    (h : k ∉ m.map Prod.fst) : mapSet m k v = m ++ [(k, v)] := by
  induction m with
  | nil => rfl
  | cons e m ih =>
    obtain ⟨k1, v1⟩ := e
    simp only [List.map_cons, List.mem_cons, not_or] at h
    simp [mapSet, Ne.symm h.1, ih h.2]

theorem mapSet_keys {β : Type} (m : List (Str × β)) (k : Str) (v : β)
    (h : k ∈ m.map Prod.fst) : (mapSet m k v).map Prod.fst = m.map Prod.fst := by
  induction m with
  | nil => simp at h
  | cons e m ih =>
    obtain ⟨k1, v1⟩ := e
    by_cases hk : k1 = k
    · simp [mapSet, hk]
    · have hm : k ∈ m.map Prod.fst := by
        simp only [List.map_cons, List.mem_cons] at h
        rcases h with h | h
        · exact absurd h.symm hk
        · exact h
      simp [mapSet, hk, ih hm]

theorem mem_mapSet {β : Type} (m : List (Str × β)) (k : Str) (v : β)
    (hd : (m.map Prod.fst).Nodup) (h : k ∈ m.map Prod.fst) (e : Str × β) :
    e ∈ mapSet m k v ↔ e = (k, v) ∨ (e ∈ m ∧ e.1 ≠ k) := by
  induction m with
  | nil => simp at h
  | cons e1 m ih =>
    obtain ⟨k1, v1⟩ := e1
    simp only [List.map_cons, List.nodup_cons] at hd
    by_cases hk : k1 = k
    · subst hk
      simp only [mapSet, ↓reduceIte, List.mem_cons]
      constructor
      · rintro (h1 | h1)
        · exact Or.inl h1
        · refine Or.inr ⟨Or.inr h1, ?_⟩
          intro he
          exact hd.1 (he ▸ List.mem_map.mpr ⟨e, h1, rfl⟩)
      · rintro (h1 | ⟨h1 | h1, h2⟩)
        · exact Or.inl h1
        · exact absurd (by rw [h1]) h2
        · exact Or.inr h1
    · have hm : k ∈ m.map Prod.fst := by
        simp only [List.map_cons, List.mem_cons] at h
        rcases h with h | h
        · exact absurd h.symm hk
        · exact h
      simp only [mapSet, hk, ↓reduceIte, List.mem_cons, ih hd.2 hm]
      constructor
      · rintro (h1 | h1 | ⟨h1, h2⟩)
        · exact Or.inr ⟨Or.inl h1, by rw [h1]; exact hk⟩
        · exact Or.inl h1
        · exact Or.inr ⟨Or.inr h1, h2⟩
      · rintro (h1 | ⟨h1 | h1, h2⟩)
        · exact Or.inr (Or.inl h1)
        · exact Or.inl h1
        · exact Or.inr (Or.inr ⟨h1, h2⟩)

theorem buckets_spec (rows : List (TxRow A)) :
    ((rows.foldl bucketStep []).map Prod.fst).Nodup ∧
      ∀ e, e ∈ rows.foldl bucketStep [] ↔
        ((∃ r ∈ rows, rowMonth r = e.1) ∧
          e.2 = (rows.filter (fun r => decide (rowMonth r = e.1))).map scanRow) := by
  induction rows using List.reverseRecOn with
  | nil => simp
  | append_singleton rows r ih =>
    obtain ⟨hnd, hmem⟩ := ih
    rw [List.foldl_append, List.foldl_cons, List.foldl_nil]
    generalize rows.foldl bucketStep [] = B at hnd hmem
    have hstep : bucketStep B r =
        mapSet B (rowMonth r) ((mapGet B (rowMonth r)).getD [] ++ [scanRow r]) := rfl
    rw [hstep]
    by_cases hk : rowMonth r ∈ B.map Prod.fst
    · obtain ⟨e0, he0, hek⟩ := List.mem_map.mp hk
      obtain ⟨k0, v0⟩ := e0
      simp only at hek
      subst hek
      have hv0 := ((hmem _).mp he0).2
      simp only at hv0
      rw [mapGet_mem B _ v0 hnd he0]
      refine ⟨by rw [mapSet_keys _ _ _ hk]; exact hnd, ?_⟩
      intro e
      rw [mem_mapSet B _ _ hnd hk e]
      constructor
      · rintro (h1 | ⟨h1, h2⟩)
        · subst h1
          refine ⟨⟨r, by simp, rfl⟩, ?_⟩
          simp [List.filter_append, hv0]
        · obtain ⟨⟨r1, hr1, hr1k⟩, hv⟩ := (hmem e).mp h1
          refine ⟨⟨r1, by simp [hr1], hr1k⟩, ?_⟩
          have hne : ¬ rowMonth r = e.1 := fun h => h2 h.symm
          simp [List.filter_append, hv, hne]
      · rintro ⟨_, hv⟩
        by_cases h2 : e.1 = rowMonth r
        · left
          obtain ⟨k1, v1⟩ := e
          simp only at h2 hv
          subst h2
          simp [hv, List.filter_append, hv0]
        · right
          have hne : ¬ rowMonth r = e.1 := fun h => h2 h.symm
          refine ⟨(hmem e).mpr ⟨?_, ?_⟩, h2⟩
          · rename_i hex
            obtain ⟨r1, hr1, hr1k⟩ := hex
            rcases List.mem_append.mp hr1 with hr1 | hr1
            · exact ⟨r1, hr1, hr1k⟩
            · simp only [List.mem_singleton] at hr1
              subst hr1
              exact absurd hr1k hne
          · simpa [List.filter_append, hne] using hv
    · have hnone : ∀ r1 ∈ rows, rowMonth r1 ≠ rowMonth r := by
        intro r1 hr1 hk1
        apply hk
        have := (hmem (rowMonth r, (rows.filter (fun x => decide (rowMonth x = rowMonth r))).map
          scanRow)).mpr ⟨⟨r1, hr1, hk1⟩, rfl⟩
        exact List.mem_map.mpr ⟨_, this, rfl⟩
      have hfil : rows.filter (fun x => decide (rowMonth x = rowMonth r)) = [] := by
        simpa [List.filter_eq_nil_iff] using hnone
      rw [mapGet_none B _ hk, mapSet_new B _ _ hk]
      refine ⟨?_, ?_⟩
      · simp only [List.map_append, List.map_cons, List.map_nil]
        refine List.Nodup.append hnd (by simp) ?_
        intro a ha hb
        rw [List.mem_singleton] at hb
        exact hk (hb ▸ ha)
      · intro e
        simp only [List.mem_append, List.mem_singleton, Option.getD_none, List.nil_append]
        constructor
        · rintro (h1 | h1)
          · obtain ⟨⟨r1, hr1, hr1k⟩, hv⟩ := (hmem e).mp h1
            have hne : ¬ rowMonth r = e.1 := by
              intro h
              exact hnone r1 hr1 (hr1k.trans h.symm)
            exact ⟨⟨r1, Or.inl hr1, hr1k⟩, by simp [List.filter_append, hv, hne]⟩
          · subst h1
            exact ⟨⟨r, Or.inr rfl, rfl⟩, by simp [List.filter_append, hfil]⟩
        · rintro ⟨⟨r1, hr1, hr1k⟩, hv⟩
          by_cases h2 : rowMonth r = e.1
          · right
            obtain ⟨k1, v1⟩ := e
            simp only at h2 hv
            subst h2
            simp [hv, List.filter_append, hfil]
          · left
            refine (hmem e).mpr ⟨?_, by simpa [List.filter_append, h2] using hv⟩
            rcases hr1 with hr1 | hr1
            · exact ⟨r1, hr1, hr1k⟩
            · subst hr1
              exact absurd hr1k h2

/-! ## Sheets -/

theorem digitVal_le (c : Char) (d : Nat) (h : digitVal c = some d) : d ≤ 9 := by
  unfold digitVal at h
  split at h
  · simp only [Option.some.injEq] at h
    omega
  · simp at h

theorem timeParse_bounds (s : Str) (t : Time) (h : timeParse s = some t) :
    ∃ y m : Nat, y < 10000 ∧ m < 100 ∧ t.year = (y : Int) ∧ t.month = m := by
  unfold timeParse at h
  split at h
  · rename_i y1 y2 y3 y4 s1 m1 m2 s2 d1 d2
    split at h
    · split at h
      · rename_i y m d hy hm hd
        split at h
        · rename_i hrange
          simp only [Option.some.injEq] at h
          subst h
          refine ⟨y, m, ?_, by omega, rfl, rfl⟩
          simp only [digitsVal, List.foldl_cons, List.foldl_nil] at hy
          cases h1 : digitVal y1 with
          | none => simp [h1] at hy
          | some a1 =>
            cases h2 : digitVal y2 with
            | none => simp [h1, h2] at hy
            | some a2 =>
              cases h3 : digitVal y3 with
              | none => simp [h1, h2, h3] at hy
              | some a3 =>
                cases h4 : digitVal y4 with
                | none => simp [h1, h2, h3, h4] at hy
                | some a4 =>
                  simp [h1, h2, h3, h4] at hy
                  have := digitVal_le _ _ h1
                  have := digitVal_le _ _ h2
                  have := digitVal_le _ _ h3
                  have := digitVal_le _ _ h4
                  omega
        · simp at h
      · simp at h
    · simp at h
  · simp at h

theorem rowMonth_digits (r : TxRow A) :
    ∃ y m : Nat, rowMonth r =
      [digitChar (y / 1000), digitChar (y / 100), digitChar (y / 10), digitChar y, '-',
        digitChar (m / 10), digitChar m] := by
  unfold rowMonth scanRow
  cases h : timeParse r.date with
  | none =>
    have hz : formatMonth zeroTime =
        [digitChar (1 / 1000), digitChar (1 / 100), digitChar (1 / 10), digitChar 1, '-',
          digitChar (1 / 10), digitChar 1] := by decide
    exact ⟨1, 1, hz⟩
  | some t =>
    obtain ⟨y, m, hy, hm, h1, h2⟩ := timeParse_bounds _ _ h
    refine ⟨y, m, ?_⟩
    obtain ⟨ty, tm, td, th, tmi, ts⟩ := t
    simp only at h1 h2
    subst h1 h2
    exact formatMonth_digits y tm hy hm _ _ _ _

theorem addSheet_rowMonth (xl : Workbook A) (r : TxRow A)
    (h : rowMonth r ∉ xl.map (fun s => s.name)) :
    addSheet xl (rowMonth r) = some (xl ++ [⟨rowMonth r, []⟩]) := by
  have h1 : (xl.any fun s => s.name == rowMonth r) = false := by
    rw [List.any_eq_false]
    intro s hs
    simp only [beq_iff_eq]
    intro he
    exact h (List.mem_map.mpr ⟨s, hs, he⟩)
  obtain ⟨y, m, hym⟩ := rowMonth_digits r
  have h2 : (rowMonth r).any forbiddenInSheetName = false := by
    rw [hym]
    have hdash : forbiddenInSheetName '-' = false := by decide
    simp [forbidden_digitChar, hdash]
  have h3 : (rowMonth r).length = 7 := by
    rw [hym]
    rfl
  simp [addSheet, h1, h2, h3]

theorem addRow_last (xl : Workbook A) (s : Sheet A) (cells : List (Cell A)) :
    addRow (xl ++ [s]) cells = xl ++ [⟨s.name, s.rows ++ [cells]⟩] := by
  simp [addRow]

theorem addRows_last (txs : List (Tx A)) (xl : Workbook A) (name : Str)
    (rows : List (List (Cell A))) :
    txs.foldl (fun x tx => addRow x (dataRow tx)) (xl ++ [⟨name, rows⟩]) =
      xl ++ [⟨name, rows ++ txs.map dataRow⟩] := by
  induction txs generalizing rows with
  | nil => simp
  | cons tx txs ih => simp [List.foldl_cons, addRow_last, ih]

theorem sheets_fold (es : List (Str × List (Tx A))) (xl : Workbook A)
    (hnd : (xl.map (fun s => s.name) ++ es.map Prod.fst).Nodup)
    (hkey : ∀ e ∈ es, ∃ r : TxRow A, rowMonth r = e.1) :
    es.foldl sheetStep (some xl) =
      some (xl ++ es.map (fun e => ⟨e.1, headerRow :: e.2.map dataRow⟩)) := by
  induction es generalizing xl with
  | nil => simp
  | cons e es ih =>
    obtain ⟨r, hr⟩ := hkey e (by simp)
    have hfresh : e.1 ∉ xl.map (fun s => s.name) := by
      intro hin
      have := (List.nodup_append.mp hnd).2.2
      exact this hin (by simp)
    have hadd : addSheet xl e.1 = some (xl ++ [⟨e.1, []⟩]) := by
      rw [← hr]
      exact addSheet_rowMonth xl r (hr ▸ hfresh)
    have hstep : sheetStep (some xl) e =
        some (xl ++ [⟨e.1, headerRow :: e.2.map dataRow⟩]) := by
      simp [sheetStep, hadd, addRow_last, addRows_last]
    rw [List.foldl_cons, hstep, ih]
    · simp
    · have hperm : (xl.map (fun s => s.name) ++ e.1 :: es.map Prod.fst).Perm
          ((xl.map (fun s => s.name) ++ [e.1]) ++ es.map Prod.fst) := by
        simp
      simpa using hperm.nodup_iff.mp (by simpa using hnd)
    · intro e1 he1
      exact hkey e1 (by simp [he1])

theorem buildWorkbook_eq (rangeOrder : List (Str × List (Tx A)) → List (Str × List (Tx A)))
    (hperm : ∀ m, (rangeOrder m).Perm m) (rows : List (TxRow A)) :
    buildWorkbook rangeOrder rows =
      some ((rangeOrder (rows.foldl bucketStep [])).map
        (fun e => ⟨e.1, headerRow :: e.2.map dataRow⟩)) := by
  obtain ⟨hnd, hmem⟩ := buckets_spec rows
  have hp := hperm (rows.foldl bucketStep [])
  unfold buildWorkbook
  rw [sheets_fold]
  · simp
  · simp only [List.map_nil, List.nil_append]
    exact (hp.map Prod.fst).nodup_iff.mpr hnd
  · intro e he
    obtain ⟨⟨r, _, hr⟩, _⟩ := (hmem e).mp (hp.mem_iff.mp he)
    exact ⟨r, hr⟩

/-! ## Exporter -/

theorem scanRow_iso (r : TxRow A) (h : ∃ t, isoDay t ∧ r.date = formatDate t) :
    rowMonth r = monthKey r.date ∧
      dataRow (scanRow r) =
        [.str r.date, .num r.amount, .str r.description, .str r.category] := by
  obtain ⟨t, ⟨hy0, hy, hm1, hm, hd1, hd⟩, hdate⟩ := h
  obtain ⟨ty, tm, td, th, tmi, ts⟩ := t
  simp only at hy0 hy hm1 hm hd1 hd
  obtain ⟨y, rfl⟩ := Int.eq_ofNat_of_zero_le hy0
  have hy4 : y < 10000 := by omega
  have hdn : td ≤ daysIn tm y := by simpa using hd
  have hd31 := daysIn_le tm y
  have hfmt := formatDate_digits y tm td hy4 (by omega) (by omega) th tmi ts
  have hparse := timeParse_digits y tm td hy4 hm1 hm hd1 hdn
  have hscan : scanRow r = ⟨⟨(y : Int), tm, td, 0, 0, 0⟩, r.amount, r.description, r.category⟩ := by
    simp only [scanRow, hdate]
    rw [hfmt, hparse]
    rfl
  constructor
  · unfold rowMonth
    rw [hscan, hdate]
    simp only
    rw [formatMonth_digits y tm hy4 (by omega), hfmt]
    rfl
  · rw [hscan]
    simp only [dataRow]
    rw [formatDate_digits y tm td hy4 (by omega) (by omega) 0 0 0, hdate, hfmt]

/-- Claim C7: for rows whose date column holds a `YYYY-MM-DD` date written
by `saveTx`, `generateSpreadsheet` saves a workbook with exactly one sheet
for every month key occurring among the rows and no other sheet; every
sheet starts with the header row and continues with exactly the rows of its
month, in read order. -/
theorem generateSpreadsheet_monthly
    (rangeOrder : List (Str × List (Tx A)) → List (Str × List (Tx A)))
    (hperm : ∀ m, (rangeOrder m).Perm m) (out : SaveOutcome) (db : DB A) (file : Str)
    (fs : FS A) (hiso : ∀ r ∈ db.transactions, ∃ t, isoDay t ∧ r.date = formatDate t) :
    ∃ xl, generateSpreadsheet rangeOrder out db file fs = some (saveFile out xl file fs) ∧
      (xl.map (fun s => s.name)).Nodup ∧
      (∀ M, M ∈ xl.map (fun s => s.name) ↔ ∃ r ∈ db.transactions, monthKey r.date = M) ∧
      ∀ s ∈ xl, s.rows = headerRow ::
        (db.transactions.filter (fun r => decide (monthKey r.date = s.name))).map
          (fun r => [.str r.date, .num r.amount, .str r.description, .str r.category]) := by
  obtain ⟨hnd, hmem⟩ := buckets_spec db.transactions
  have hp := hperm (db.transactions.foldl bucketStep [])
  have hkey : ∀ r ∈ db.transactions, rowMonth r = monthKey r.date :=
    fun r hr => (scanRow_iso r (hiso r hr)).1
  have hfilter : ∀ k : Str,
      db.transactions.filter (fun r => decide (rowMonth r = k)) =
        db.transactions.filter (fun r => decide (monthKey r.date = k)) := by
    intro k
    apply List.filter_congr
    intro r hr
    rw [hkey r hr]
  refine ⟨(rangeOrder (db.transactions.foldl bucketStep [])).map
    (fun e => ⟨e.1, headerRow :: e.2.map dataRow⟩), ?_, ?_, ?_, ?_⟩
  · unfold generateSpreadsheet
    rw [buildWorkbook_eq rangeOrder hperm db.transactions]
    rfl
  · rw [List.map_map]
    exact (hp.map Prod.fst).nodup_iff.mpr hnd
  · intro M
    rw [List.map_map]
    constructor
    · intro hM
      obtain ⟨e, he, heM⟩ := List.mem_map.mp hM
      obtain ⟨⟨r, hr, hrk⟩, _⟩ := (hmem e).mp (hp.mem_iff.mp he)
      exact ⟨r, hr, by rw [← hkey r hr, hrk]; exact heM⟩
    · rintro ⟨r, hr, hrM⟩
      have he : (M, (db.transactions.filter (fun x => decide (rowMonth x = M))).map scanRow) ∈
          db.transactions.foldl bucketStep [] :=
        (hmem _).mpr ⟨⟨r, hr, by rw [hkey r hr]; exact hrM⟩, rfl⟩
      exact List.mem_map.mpr ⟨_, hp.mem_iff.mpr he, rfl⟩
  · intro s hs
    obtain ⟨e, he, rfl⟩ := List.mem_map.mp hs
    obtain ⟨_, hv⟩ := (hmem e).mp (hp.mem_iff.mp he)
    simp only [List.cons.injEq, true_and]
    rw [hv, hfilter, List.map_map]
    apply List.map_congr_left
    intro r hr
    exact (scanRow_iso r (hiso r (List.mem_filter.mp hr).1)).2

theorem generateSpreadsheet_monthly_witness :
    ∃ xl, generateSpreadsheet id .ok
        (⟨[⟨"2024-02-01".toList, -5, "UBER VIAGEM".toList, "Transporte".toList⟩,
           ⟨"2024-03-01".toList, -7, "IFOOD LANCHE".toList, "Alimentação".toList⟩],
          defaultRules⟩ : DB Int) "gastos.xlsx".toList (fun _ => none) =
        some (saveFile .ok xl "gastos.xlsx".toList (fun _ => none)) ∧
      (xl.map (fun s => s.name)).Nodup ∧
      (∀ M, M ∈ xl.map (fun s => s.name) ↔ M = "2024-02".toList ∨ M = "2024-03".toList) ∧
      ∀ s ∈ xl, s.rows.length = 2 := by
  obtain ⟨xl, hgen, hnd, hnames, hrows⟩ :=
    generateSpreadsheet_monthly id (fun m => List.Perm.refl m) .ok
      (⟨[⟨"2024-02-01".toList, -5, "UBER VIAGEM".toList, "Transporte".toList⟩,
         ⟨"2024-03-01".toList, -7, "IFOOD LANCHE".toList, "Alimentação".toList⟩],
        defaultRules⟩ : DB Int) "gastos.xlsx".toList (fun _ => none)
      (by
        intro r hr
        simp only [List.mem_cons, List.mem_singleton, List.not_mem_nil, or_false] at hr
        rcases hr with rfl | rfl
        · exact ⟨⟨2024, 2, 1, 0, 0, 0⟩, by unfold isoDay; decide, by decide⟩
        · exact ⟨⟨2024, 3, 1, 0, 0, 0⟩, by unfold isoDay; decide, by decide⟩)
  have hk : ∀ M : Str, M ∈ xl.map (fun s => s.name) ↔
      M = "2024-02".toList ∨ M = "2024-03".toList := by
    intro M
    rw [hnames M]
    constructor
    · rintro ⟨r, hr, hrM⟩
      simp only [List.mem_cons, List.mem_singleton, List.not_mem_nil, or_false] at hr
      rcases hr with rfl | rfl
      · exact Or.inl hrM.symm
      · exact Or.inr hrM.symm
    · rintro (rfl | rfl)
      · exact ⟨_, List.mem_cons_self _ _, rfl⟩
      · exact ⟨_, List.mem_cons_of_mem _ (List.mem_cons_self _ _), rfl⟩
  refine ⟨xl, hgen, hnd, hk, ?_⟩
  intro s hs
  rcases (hk s.name).mp (List.mem_map.mpr ⟨s, hs, rfl⟩) with hname | hname
  · rw [hrows s hs, hname]
    decide
  · rw [hrows s hs, hname]
    decide

/-- Claim C9, as amended: when the target spreadsheet exists and the backup
rename fails, the export phase does not abort.  The error of `os.Rename` is
dropped and `generateSpreadsheet` still saves to the target path: after a
successful save the target holds the new workbook in place of the previous
contents `old`, and every other path is as before, so no backup exists. -/
theorem export_after_failed_rename
    (rangeOrder : List (Str × List (Tx A)) → List (Str × List (Tx A)))
    (hperm : ∀ m, (rangeOrder m).Perm m) (now : Time) (db : DB A) (fs : FS A)
    (old : FileData A) (hex : fs "gastos.xlsx".toList = some old) :
    ∃ xl fs1, buildWorkbook rangeOrder db.transactions = some xl ∧
      exportPhase rangeOrder now false .ok db fs = some fs1 ∧
      fs1 "gastos.xlsx".toList = some (.xlsx xl) ∧
      (∀ p, p ≠ "gastos.xlsx".toList → fs1 p = fs p) ∧
      ∀ p, fs1 p = some old → fs p = some old := by
  have hb : backupSpreadsheet now false "gastos.xlsx".toList fs = fs := by
    simp [backupSpreadsheet]
  refine ⟨_, FS.write fs "gastos.xlsx".toList (.xlsx ((rangeOrder
    (db.transactions.foldl bucketStep [])).map (fun e => ⟨e.1, headerRow :: e.2.map dataRow⟩))),
    buildWorkbook_eq rangeOrder hperm db.transactions, ?_, ?_, ?_, ?_⟩
  · unfold exportPhase generateSpreadsheet
    rw [hb, buildWorkbook_eq rangeOrder hperm db.transactions]
    rfl
  · unfold FS.write
    rw [if_pos rfl]
  · intro p hp
    unfold FS.write
    rw [if_neg hp]
  · intro p hp
    by_cases hpe : p = "gastos.xlsx".toList
    · rw [hpe]
      exact hex
    · unfold FS.write at hp
      rw [if_neg hpe] at hp
      exact hp

theorem export_after_failed_rename_witness :
    ∃ xl fs1, buildWorkbook id
        [(⟨"2024-03-14".toList, -42, "IFOOD*RESTAURANTE".toList, "Alimentação".toList⟩ :
          TxRow Int)] = some xl ∧
      exportPhase id ⟨2024, 3, 14, 9, 0, 0⟩ false .ok
        (⟨[⟨"2024-03-14".toList, -42, "IFOOD*RESTAURANTE".toList, "Alimentação".toList⟩],
          defaultRules⟩ : DB Int)
        (fun p => if p = "gastos.xlsx".toList then some (FileData.raw [80, 75]) else none) =
          some fs1 ∧
      fs1 "gastos.xlsx".toList = some (FileData.xlsx xl) ∧
      (∀ p, p ≠ "gastos.xlsx".toList →
        fs1 p = if p = "gastos.xlsx".toList then some (FileData.raw [80, 75]) else none) ∧
      ∀ p, fs1 p = some (FileData.raw [80, 75]) →
        (if p = "gastos.xlsx".toList then some (FileData.raw [80, 75]) else none) =
          some (FileData.raw [80, 75] : FileData Int) :=
  export_after_failed_rename id (fun m => List.Perm.refl m) ⟨2024, 3, 14, 9, 0, 0⟩
    (⟨[⟨"2024-03-14".toList, -42, "IFOOD*RESTAURANTE".toList, "Alimentação".toList⟩],
      defaultRules⟩ : DB Int)
    (fun p => if p = "gastos.xlsx".toList then some (FileData.raw [80, 75]) else none)
    (FileData.raw [80, 75]) (by decide)

/-- Claim C9, counterexample: the target exists, the rename fails, and the
export phase still replaces the target's contents with the new
workbook. -/
theorem export_overwrites_without_backup :
    (exportPhase id ⟨2024, 3, 14, 9, 0, 0⟩ false .ok
        (⟨[⟨"2024-03-14".toList, -42, "IFOOD*RESTAURANTE".toList, "Alimentação".toList⟩],
          defaultRules⟩ : DB Int)
        (fun p => if p = "gastos.xlsx".toList then some (.raw [80, 75]) else none)).map
        (fun fs1 => (fs1 "gastos.xlsx".toList,
          fs1 "gastos.xlsx.20240314_090000.bak".toList)) =
      some (some (.xlsx [⟨"2024-03".toList,
          [[.str "Data".toList, .str "Valor".toList, .str "Descrição".toList,
              .str "Categoria".toList],
            [.str "2024-03-14".toList, .num (-42), .str "IFOOD*RESTAURANTE".toList,
              .str "Alimentação".toList]]⟩]),
        none) := by
  decide

end FinanceManager
